import Mathlib

/-!
Verification of the expression-search engine in `findexpr.cpp`.

The C++ code is shallowly embedded: the numeric type `double` is modelled by
`ℚ` (all claim-relevant computations are exact, small-magnitude decimal
arithmetic where double arithmetic coincides with rational arithmetic;
division by zero, which on doubles produces a non-finite value that no claim
evaluates, is modelled by the Lean convention `x / 0 = 0`, and the real-valued
`pow` is modelled on integral exponents only).  Trees mutated in place in C++
become pure state-passing functions; the generator `throw` becomes `Except`.
-/

/-- `Operation` from findexpr.cpp: name, infix symbol (empty string when the
C++ field is the empty string), argument count `n`, precedence, and the
evaluation function.  The C++ lambdas index `args[0]`/`args[1]`; they are only
ever invoked with `args.length = n`, so indexing is modelled by `getD` (the
default is never read at any invocation satisfying the invariant). -/
structure Operation where
  name : String
  infixSym : String
  n : Nat
  precedence : Nat
  fn : List ℚ → ℚ

/-- The loop body of `tenfactor`: `while (i<20 && x>=f) { f *= 10; i++; }`,
with the fuel argument counting the remaining iterations. -/
def tenfactorLoop (x : ℚ) : Nat → ℚ → ℚ
  | 0, f => f
  | fuel + 1, f => if f ≤ x then tenfactorLoop x fuel (f * 10) else f

/-- `tenfactor` from findexpr.cpp: starts with `f = 1`, `i = 0`, at most 20
iterations. -/
def tenfactor (x : ℚ) : ℚ := tenfactorLoop x 20 1

/-- The `add` entry of `oplist`. -/
def addOp : Operation :=
  ⟨"add", "+", 2, 1, fun args => args.getD 0 0 + args.getD 1 0⟩

/-- The `sub` entry of `oplist`. -/
def subOp : Operation :=
  ⟨"sub", "-", 2, 1, fun args => args.getD 0 0 - args.getD 1 0⟩

/-- The `mul` entry of `oplist`. -/
def mulOp : Operation :=
  ⟨"mul", "*", 2, 2, fun args => args.getD 0 0 * args.getD 1 0⟩

/-- The `div` entry of `oplist` (division by zero gives a non-finite double in
the C++ code; no claim evaluates it, and it is modelled by `ℚ`-division, which
yields 0 there). -/
def divOp : Operation :=
  ⟨"div", "/", 2, 3, fun args => args.getD 0 0 / args.getD 1 0⟩

/-- The `pow` entry of `oplist` (the C `pow` over doubles is modelled on
integral exponents by `zpow`; no claim evaluates it). -/
def powOp : Operation :=
  ⟨"pow", "^", 2, 4, fun args =>
    if (args.getD 1 0).den = 1 then args.getD 0 0 ^ (args.getD 1 0).num else 0⟩

/-- The `cat` entry of `oplist`: `args[0]*tenfactor(args[1])+args[1]`. -/
def catOp : Operation :=
  ⟨"cat", "||", 2, 5, fun args =>
    args.getD 0 0 * tenfactor (args.getD 1 0) + args.getD 1 0⟩

/-- The `neg` entry of `oplist`. -/
def negOp : Operation :=
  ⟨"neg", "-", 1, 2, fun args => -args.getD 0 0⟩

/-- `oplist` from findexpr.cpp, in source order. -/
def oplist : List Operation := [addOp, subOp, mulOp, divOp, powOp, catOp, negOp]

/-- `precedence(Operation*)` from findexpr.cpp: a null operation pointer
(a value node, or an unassigned expression node) has precedence 9. -/
def precOfOption : Option Operation → Nat
  | none => 9
  | some op => op.precedence

/-- Expression trees: `Value` nodes (one numeric value) and `Expr` nodes
(an optional operation — `none` is the C++ null pointer — and a list of
children).  `Value::make()` value-initializes the stored double to 0. -/
inductive Node where
  | value (v : ℚ)
  | expr (op : Option Operation) (args : List Node)

/-- `Node::operation()` composed with `precedence`: the precedence used for a
child when deciding bracketing (`Value` nodes report a null operation). -/
def nodePrec : Node → Nat
  | .value _ => 9
  | .expr op _ => precOfOption op

mutual

/-- Number of `Value` (leaf) nodes. -/
def leafcount : Node → Nat
  | .value _ => 1
  | .expr _ args => leafcountList args

def leafcountList : List Node → Nat
  | [] => 0
  | t :: ts => leafcount t + leafcountList ts

end

mutual

/-- The leaf values in pre-order (children left-to-right). -/
def leaves : Node → List ℚ
  | .value v => [v]
  | .expr _ args => leavesList args

def leavesList : List Node → List ℚ
  | [] => []
  | t :: ts => leaves t ++ leavesList ts

end

mutual

/-- Number of `Expr` nodes with exactly two children (the nodes `setops`
assigns to). -/
def bincount : Node → Nat
  | .value _ => 0
  | .expr _ args => (if args.length = 2 then 1 else 0) + bincountList args

def bincountList : List Node → Nat
  | [] => 0
  | t :: ts => bincount t + bincountList ts

end

mutual

/-- The operation fields of two-child `Expr` nodes, in pre-order (node before
children, children left-to-right) — the traversal order of `setops`. -/
def opsPre : Node → List (Option Operation)
  | .value _ => []
  | .expr op args => (if args.length = 2 then [op] else []) ++ opsPreList args

def opsPreList : List Node → List (Option Operation)
  | [] => []
  | t :: ts => opsPre t ++ opsPreList ts

end

mutual

/-- The operation fields of `Expr` nodes that do not have exactly two
children, in pre-order (`setops` never touches these). -/
def opsOther : Node → List (Option Operation)
  | .value _ => []
  | .expr op args => (if args.length = 2 then [] else [op]) ++ opsOtherList args

def opsOtherList : List Node → List (Option Operation)
  | [] => []
  | t :: ts => opsOther t ++ opsOtherList ts

end

mutual

/-- Erase all leaf values (to the `Value::make()` default 0), keeping
structure and operations: two trees with equal `mapValues0` differ at most in
their leaf values. -/
def mapValues0 : Node → Node
  | .value _ => .value 0
  | .expr op args => .expr op (mapValues0List args)

def mapValues0List : List Node → List Node
  | [] => []
  | t :: ts => mapValues0 t :: mapValues0List ts

end

mutual

/-- Erase all operation fields, keeping structure and leaf values: two trees
with equal `eraseOps` differ at most in their operation fields. -/
def eraseOps : Node → Node
  | .value v => .value v
  | .expr _ args => .expr none (eraseOpsList args)

def eraseOpsList : List Node → List Node
  | [] => []
  | t :: ts => eraseOps t :: eraseOpsList ts

end

mutual

/-- The bare skeleton: leaf values to 0 and operations to `none`.  This is
exactly what `enumtrees` produces for the given structure. -/
def skelOf : Node → Node
  | .value _ => .value 0
  | .expr _ args => .expr none (skelOfList args)

def skelOfList : List Node → List Node
  | [] => []
  | t :: ts => skelOf t :: skelOfList ts

end

mutual

/-- Every `Expr` node has exactly two children (true of every tree built by
`enumtrees`). -/
def allBinary : Node → Bool
  | .value _ => true
  | .expr _ args => args.length == 2 && allBinaryList args

def allBinaryList : List Node → Bool
  | [] => true
  | t :: ts => allBinary t && allBinaryList ts

end

mutual

/-- Every `Expr` node has an assigned operation. -/
def fullyAssigned : Node → Bool
  | .value _ => true
  | .expr op args => op.isSome && fullyAssignedList args

def fullyAssignedList : List Node → Bool
  | [] => true
  | t :: ts => fullyAssigned t && fullyAssignedList ts

end

mutual

/-- `Node::eval` from findexpr.cpp.  A `Value` evaluates to its value; an
`Expr` evaluates all children first (left to right), then applies its
operation.  The C++ code dereferences a null operation pointer when the
operation was never assigned — evaluation cannot produce a value there, which
the embedding renders as `none`. -/
def eval : Node → Option ℚ
  | .value v => some v
  | .expr op args =>
    match evalList args with
    | none => none
    | some results =>
      match op with
      | none => none
      | some o => some (o.fn results)

def evalList : List Node → Option (List ℚ)
  | [] => some []
  | t :: ts =>
    match eval t with
    | none => none
    | some v =>
      match evalList ts with
      | none => none
      | some vs => some (v :: vs)

end

/-- Textual form of a leaf value, as `os << value` prints a double: integral
values print with no decimal point.  (Non-integral formatting is irrelevant
to every claim; each rendered leaf in the claims is integral.) -/
def showT (v : ℚ) : String := if v.den = 1 then toString v.num else toString v

mutual

/-- `Expr::output` / `Value::output` from findexpr.cpp, producing the string
written to the stream.  Branch order follows the C++: unassigned-operation
placeholder forms first, then infix binary, infix unary, and the
function-call form. -/
def render : Node → String
  | .value v => showT v
  | .expr none [a] => "(" ++ "-" ++ render a ++ ")"
  | .expr none [a, b] => "(" ++ render a ++ "#" ++ render b ++ ")"
  | .expr none args => "op(" ++ renderArgs args true ++ ")"
  | .expr (some o) [a, b] =>
    if o.infixSym.isEmpty then
      o.name ++ "(" ++ renderArgs [a, b] true ++ ")"
    else
      (if precOfOption (some o) > nodePrec a then "(" ++ render a ++ ")" else render a)
        ++ o.infixSym ++
      (if precOfOption (some o) > nodePrec b then "(" ++ render b ++ ")" else render b)
  | .expr (some o) [a] =>
    if o.infixSym.isEmpty then
      o.name ++ "(" ++ renderArgs [a] true ++ ")"
    else
      o.infixSym ++
        (if precOfOption (some o) > nodePrec a then "(" ++ render a ++ ")" else render a)
  | .expr (some o) args => o.name ++ "(" ++ renderArgs args true ++ ")"

def renderArgs : List Node → Bool → String
  | [], _ => ""
  | a :: rest, first =>
    (if first then "" else ",") ++ render a ++ renderArgs rest false

end

/-- The recursion of `enumtrees` for a positive leaf count.  For
`nleaves = n + 2` the C++ loop runs `i = 1 .. nleaves-1`; here `i = j + 1`
with `j < n + 1`.  The left subtree has `nleaves - i = n + 1 - j` leaves, the
right subtree `i = j + 1` leaves, combined as `Expr::make(t, s)`; the
callback order of the continuation-passing C++ code is the list order. -/
def enumtreesPos : Nat → List Node
  | 0 => []
  | 1 => [Node.value 0]
  | n + 2 =>
    (List.range (n + 1)).attach.flatMap fun j =>
      (enumtreesPos (n + 1 - j.1)).flatMap fun t =>
        (enumtreesPos (j.1 + 1)).map fun s => Node.expr none [t, s]
decreasing_by
  · exact Nat.lt_succ_of_le (Nat.sub_le _ _)
  · exact Nat.succ_lt_succ (List.mem_range.mp j.2)

/-- `enumtrees` from findexpr.cpp, with the C++ `int` argument: a leaf count
below 1 produces nothing. -/
def enumtrees (nleaves : Int) : List Node :=
  if nleaves < 1 then [] else enumtreesPos nleaves.toNat

mutual

/-- `setvalues` from findexpr.cpp, as a pure state-passing function.  The
`generator` over the operand vector is its list of remaining values, and
`next()` on an exhausted generator throws `end of iteration`.  A
`Value` node takes the next generator element (the C++ `g.next()` throw
propagates out as `Except.error`); an `Expr` node recurses over its children
left-to-right.  Returns the updated tree and the remaining generator
elements. -/
def setvalues : Node → List ℚ → Except String (Node × List ℚ)
  | .value _, g =>
    match g with
    | [] => .error "end of iteration"
    | x :: rest => .ok (.value x, rest)
  | .expr op args, g =>
    match setvaluesList args g with
    | .error e => .error e
    | .ok (args2, g2) => .ok (.expr op args2, g2)

def setvaluesList : List Node → List ℚ → Except String (List Node × List ℚ)
  | [], g => .ok ([], g)
  | t :: ts, g =>
    match setvalues t g with
    | .error e => .error e
    | .ok (t2, g2) =>
      match setvaluesList ts g2 with
      | .error e => .error e
      | .ok (ts2, g3) => .ok (t2 :: ts2, g3)

end

/-- `OpsGenerator` from findexpr.cpp: the operation list and the current
mixed-radix counter. -/
structure OpsGenerator where
  ops : List Operation
  cur : Nat

/-- The operation returned by `OpsGenerator::next`: `ops[cur % ops.size()]`.
With a nonempty list `cur % ops.length < ops.length`, so this is always
`some`; an empty list is undefined behaviour in the C++ (`% 0`), modelled as
`none`. -/
def OpsGenerator.peek (g : OpsGenerator) : Option Operation :=
  g.ops[g.cur % g.ops.length]?

/-- The counter update of `OpsGenerator::next`: `cur /= ops.size()`. -/
def OpsGenerator.adv (g : OpsGenerator) : OpsGenerator :=
  ⟨g.ops, g.cur / g.ops.length⟩

mutual

/-- `setops` from findexpr.cpp, as a pure state-passing function: an `Expr`
node with exactly two children first takes the next generator operation for
itself, then recurses over its children left-to-right; any other node leaves
its operation untouched and recurses. -/
def setops : Node → OpsGenerator → Node × OpsGenerator
  | .value v, g => (.value v, g)
  | .expr op args, g =>
    let p := if args.length = 2 then (g.peek, g.adv) else (op, g)
    let q := setopsList args p.2
    (.expr p.1 q.1, q.2)
termination_by structural t _ => t

def setopsList : List Node → OpsGenerator → List Node × OpsGenerator
  | [], g => ([], g)
  | t :: ts, g =>
    let p := setops t g
    let q := setopsList ts p.2
    (p.1 :: q.1, q.2)
termination_by structural ts _ => ts

end

/-- One iteration of the inner loop of `main`: fresh generators
`iter(nums)` and `OpsGenerator(binops, i)` are built, then `setvalues` and
`setops` run on the tree.  The uncaught C++ `generator` throw aborts the
program, modelled by `Except.error`. -/
def searchStep (t : Node) (nums : List ℚ) (ops : List Operation) (i : Nat) :
    Except String Node :=
  match setvalues t nums with
  | .error e => .error e
  | .ok (t1, _) => .ok (setops t1 ⟨ops, i⟩).1

/-- The tree state entering iteration `i` of the inner loop of `main`: the
same tree object is reused (there is no clone in the C++ loop), so iteration
`i` starts from whatever iterations `0 .. i-1` left behind. -/
def innerState (t : Node) (nums : List ℚ) (ops : List Operation) : Nat → Node
  | 0 => t
  | i + 1 =>
    match searchStep (innerState t nums ops i) nums ops i with
    | .ok t2 => t2
    | .error _ => innerState t nums ops i

/-- `binops` from `main`: the arity-2 entries of `oplist`, in order. -/
def binops : List Operation := oplist.filter fun o => o.n == 2

/-- The `m` base-`r` digits of `i`, least significant first: the successive
values `cur % r` produced by `OpsGenerator::next` starting from `cur = i`. -/
def mixedDigits (r : Nat) : Nat → Nat → List Nat
  | _, 0 => []
  | i, m + 1 => i % r :: mixedDigits r (i / r) m

/-! ### The `tenfactor` loop -/

/-- Behaviour of the `tenfactor` loop started at `f = 10 ^ j` with `fuel`
iterations left: it stops at `10 ^ (j + t)` where `t` is the number of
multiplications performed; each multiplication was justified by `x ≥ f`, and
when fuel remained at the stop, the loop stopped because `x < f`. -/
theorem tenfactorLoop_spec (x : ℚ) :
    ∀ (fuel j : Nat), ∃ t, t ≤ fuel ∧
      tenfactorLoop x fuel ((10:ℚ) ^ j) = 10 ^ (j + t) ∧
      (∀ i, i < t → (10:ℚ) ^ (j + i) ≤ x) ∧
      (t < fuel → x < 10 ^ (j + t))
  | 0, j =>
    ⟨0, Nat.le_refl 0, by simp [tenfactorLoop], fun i hi => absurd hi (Nat.not_lt_zero i),
      fun h => absurd h (Nat.lt_irrefl 0)⟩
  | fuel + 1, j => by
    by_cases hx : (10:ℚ) ^ j ≤ x
    · obtain ⟨t, ht, hval, hlow, hhigh⟩ := tenfactorLoop_spec x fuel (j + 1)
      refine ⟨t + 1, by omega, ?_, ?_, ?_⟩
      · rw [tenfactorLoop, if_pos hx, ← pow_succ, hval]
        have : j + 1 + t = j + (t + 1) := by omega
        rw [this]
      · intro i hi
        cases i with
        | zero => simpa using hx
        | succ i2 =>
          have : j + (i2 + 1) = j + 1 + i2 := by omega
          rw [this]
          exact hlow i2 (by omega)
      · intro hlt
        have : j + (t + 1) = j + 1 + t := by omega
        rw [this]
        exact hhigh (by omega)
    · refine ⟨0, Nat.zero_le _, ?_, fun i hi => absurd hi (Nat.not_lt_zero i), ?_⟩
      · rw [tenfactorLoop, if_neg hx, Nat.add_zero]
      · intro _
        rw [Nat.add_zero]
        exact lt_of_not_ge hx

/-- C9: the concatenation operation returns `a * tenfactor b + b`, where
`tenfactor b` is 1 for `b < 1` (negative `b` included), `10 ^ 20` for
`b ≥ 10 ^ 20` (the 20-multiplication cap), and otherwise the smallest power
of ten strictly greater than `b`. -/
theorem cat_tenfactor_correct :
    (∀ a b : ℚ, catOp.fn [a, b] = a * tenfactor b + b) ∧
    (∀ b : ℚ, b < 1 → tenfactor b = 1) ∧
    (∀ b : ℚ, (10:ℚ) ^ 20 ≤ b → tenfactor b = 10 ^ 20) ∧
    (∀ b : ℚ, 1 ≤ b → b < 10 ^ 20 →
      ∃ k, k ≤ 20 ∧ tenfactor b = 10 ^ k ∧ b < 10 ^ k ∧ ∀ i, i < k → (10:ℚ) ^ i ≤ b) := by
  have hten : ∀ b : ℚ, tenfactor b = tenfactorLoop b 20 ((10:ℚ) ^ 0) := by
    intro b; rw [pow_zero]; rfl
  refine ⟨fun a b => rfl, ?_, ?_, ?_⟩
  · intro b hb
    obtain ⟨t, ht, hval, hlow, hhigh⟩ := tenfactorLoop_spec b 20 0
    have ht0 : t = 0 := by
      by_contra hne
      have h1 : (10:ℚ) ^ (0 + 0) ≤ b := hlow 0 (by omega)
      simp at h1
      exact absurd hb (not_lt_of_ge h1)
    rw [hten, hval, ht0, pow_zero]
  · intro b hb
    obtain ⟨t, ht, hval, hlow, hhigh⟩ := tenfactorLoop_spec b 20 0
    have ht20 : t = 20 := by
      by_contra hne
      have h1 : b < 10 ^ (0 + t) := hhigh (by omega)
      have h2 : ((10:ℚ) ^ t) ≤ 10 ^ 20 :=
        pow_le_pow_right₀ (by norm_num) (by omega)
      rw [Nat.zero_add] at h1
      exact absurd hb (not_le_of_lt (lt_of_lt_of_le h1 h2))
    rw [hten, hval, ht20]
  · intro b hb1 hb2
    obtain ⟨t, ht, hval, hlow, hhigh⟩ := tenfactorLoop_spec b 20 0
    refine ⟨t, ht, by rw [hten, hval, Nat.zero_add], ?_, ?_⟩
    · rcases Nat.lt_or_ge t 20 with h | h
      · have h1 := hhigh h
        rwa [Nat.zero_add] at h1
      · have ht20 : t = 20 := by omega
        rw [ht20]
        exact hb2
    · intro i hi
      have h1 := hlow i hi
      rwa [Nat.zero_add] at h1

/-- Witness for C9 at `b = 45` (yielding the factor 100) and `b = -3`
(yielding the factor 1). -/
theorem cat_tenfactor_correct_witness :
    ((1:ℚ) ≤ 45 ∧ (45:ℚ) < 10 ^ 20 ∧
      ∃ k, k ≤ 20 ∧ tenfactor 45 = 10 ^ k ∧ (45:ℚ) < 10 ^ k ∧
        ∀ i, i < k → (10:ℚ) ^ i ≤ 45) ∧
    ((-3:ℚ) < 1 ∧ tenfactor (-3) = 1) :=
  ⟨⟨by norm_num, by norm_num,
      cat_tenfactor_correct.2.2.2 45 (by norm_num) (by norm_num)⟩,
    ⟨by norm_num, cat_tenfactor_correct.2.1 (-3) (by norm_num)⟩⟩

/-! ### Evaluation and unassigned operations -/

mutual

theorem eval_isSome_of_assigned : ∀ t : Node, fullyAssigned t = true → (eval t).isSome = true
  | .value _, _ => rfl
  | .expr op args, h => by
    rw [fullyAssigned, Bool.and_eq_true] at h
    obtain ⟨vs, hvs⟩ := Option.isSome_iff_exists.mp (evalList_isSome_of_assigned args h.2)
    obtain ⟨o, ho⟩ := Option.isSome_iff_exists.mp h.1
    rw [eval, hvs, ho]
    rfl

theorem evalList_isSome_of_assigned :
    ∀ ts : List Node, fullyAssignedList ts = true → (evalList ts).isSome = true
  | [], _ => rfl
  | t :: ts, h => by
    rw [fullyAssignedList, Bool.and_eq_true] at h
    obtain ⟨v, hv⟩ := Option.isSome_iff_exists.mp (eval_isSome_of_assigned t h.1)
    obtain ⟨vs, hvs⟩ := Option.isSome_iff_exists.mp (evalList_isSome_of_assigned ts h.2)
    rw [evalList, hv, hvs]
    rfl

end

mutual

theorem eval_none_of_unassigned : ∀ t : Node, fullyAssigned t = false → eval t = none
  | .value _, h => by simp [fullyAssigned] at h
  | .expr op args, h => by
    rw [fullyAssigned, Bool.and_eq_false_iff] at h
    rcases h with h | h
    · have ho : op = none := by
        cases op with
        | none => rfl
        | some o => simp at h
      subst ho
      rw [eval]
      cases evalList args <;> rfl
    · rw [eval, evalList_none_of_unassigned args h]

theorem evalList_none_of_unassigned :
    ∀ ts : List Node, fullyAssignedList ts = false → evalList ts = none
  | t :: ts, h => by
    rw [fullyAssignedList, Bool.and_eq_false_iff] at h
    rcases h with h | h
    · rw [evalList, eval_none_of_unassigned t h]
    · rw [evalList, evalList_none_of_unassigned ts h]
      cases eval t <;> rfl

end

/-- C7: evaluating a tree containing a reachable `Expr` node with no assigned
operation cannot produce a value (the C++ code dereferences a null pointer
there, modelled as `none`); when every `Expr` node has an assigned operation,
evaluation produces a number (double arithmetic is total — division by zero
and the like yield non-finite doubles, not errors). -/
theorem eval_unassigned_contract :
    (∀ t : Node, fullyAssigned t = false → eval t = none) ∧
    (∀ t : Node, fullyAssigned t = true → ∃ x, eval t = some x) :=
  ⟨fun t h => eval_none_of_unassigned t h,
    fun t h => Option.isSome_iff_exists.mp (eval_isSome_of_assigned t h)⟩

/-- Witness for C7: a tree with an unassigned root evaluates to `none`, and
the same tree with `add` assigned evaluates to a number. -/
theorem eval_unassigned_contract_witness :
    (fullyAssigned (Node.expr none [Node.value 1, Node.value 2]) = false ∧
      eval (Node.expr none [Node.value 1, Node.value 2]) = none) ∧
    (fullyAssigned (Node.expr (some addOp) [Node.value 1, Node.value 2]) = true ∧
      ∃ x, eval (Node.expr (some addOp) [Node.value 1, Node.value 2]) = some x) :=
  ⟨⟨rfl, eval_unassigned_contract.1 _ rfl⟩, ⟨rfl, eval_unassigned_contract.2 _ rfl⟩⟩

/-! ### The renderer -/

/-- C3: in the infix rendering branches (binary and unary), a child is
parenthesized exactly when its precedence — its operation's precedence, or the
atomic precedence 9 for a `Value` or unassigned child — is strictly below the
parent operation's precedence; consequently a `Value` child of any registry
operation (precedence at most 9) is never parenthesized, and an
equal-precedence child is never parenthesized. -/
theorem render_precedence_correct :
    (∀ (o : Operation) (a b : Node), o.infixSym ≠ "" →
      render (Node.expr (some o) [a, b]) =
        (if nodePrec a < o.precedence then "(" ++ render a ++ ")" else render a)
          ++ o.infixSym ++
        (if nodePrec b < o.precedence then "(" ++ render b ++ ")" else render b)) ∧
    (∀ (o : Operation) (a : Node), o.infixSym ≠ "" →
      render (Node.expr (some o) [a]) =
        o.infixSym ++
          (if nodePrec a < o.precedence then "(" ++ render a ++ ")" else render a)) ∧
    (∀ v : ℚ, nodePrec (Node.value v) = 9) ∧
    (∀ (o : Operation) (v : ℚ) (b : Node), o.infixSym ≠ "" → o.precedence ≤ 9 →
      render (Node.expr (some o) [Node.value v, b]) =
        render (Node.value v) ++ o.infixSym ++
        (if nodePrec b < o.precedence then "(" ++ render b ++ ")" else render b)) ∧
    (∀ (o : Operation) (a b : Node), o.infixSym ≠ "" → nodePrec a = o.precedence →
      render (Node.expr (some o) [a, b]) =
        render a ++ o.infixSym ++
        (if nodePrec b < o.precedence then "(" ++ render b ++ ")" else render b)) := by
  have hmain : ∀ (o : Operation) (a b : Node), o.infixSym ≠ "" →
      render (Node.expr (some o) [a, b]) =
        (if nodePrec a < o.precedence then "(" ++ render a ++ ")" else render a)
          ++ o.infixSym ++
        (if nodePrec b < o.precedence then "(" ++ render b ++ ")" else render b) := by
    intro o a b h
    have hne : o.infixSym.isEmpty = false := by
      rw [Bool.eq_false_iff]
      intro h2
      exact h ((String.isEmpty_iff _).mp h2)
    rw [render, hne]
    simp only [Bool.false_eq_true, if_false, precOfOption, gt_iff_lt]
  refine ⟨hmain, ?_, fun v => rfl, ?_, ?_⟩
  · intro o a h
    have hne : o.infixSym.isEmpty = false := by
      rw [Bool.eq_false_iff]
      intro h2
      exact h ((String.isEmpty_iff _).mp h2)
    rw [render, hne]
    simp only [Bool.false_eq_true, if_false, precOfOption, gt_iff_lt]
  · intro o v b h h9
    rw [hmain o _ b h]
    have : ¬ nodePrec (Node.value v) < o.precedence := by
      rw [nodePrec]
      omega
    rw [if_neg this]
  · intro o a b h heq
    rw [hmain o a b h, heq, if_neg (Nat.lt_irrefl _)]

/-- Witness for C3: `(1+2)*7` brackets the lower-precedence `add` child of
`mul`, while the leaf child 7 stays bare; `1+2+3` leaves the equal-precedence
right `add` child of `add` unbracketed. -/
theorem render_precedence_correct_witness :
    render (Node.expr (some mulOp) [Node.expr (some addOp) [Node.value 1, Node.value 2],
        Node.value 7]) =
      (if nodePrec (Node.expr (some addOp) [Node.value 1, Node.value 2]) < mulOp.precedence
        then "(" ++ render (Node.expr (some addOp) [Node.value 1, Node.value 2]) ++ ")"
        else render (Node.expr (some addOp) [Node.value 1, Node.value 2]))
        ++ mulOp.infixSym ++
      (if nodePrec (Node.value 7) < mulOp.precedence
        then "(" ++ render (Node.value 7) ++ ")" else render (Node.value 7)) ∧
    render (Node.expr (some addOp) [Node.expr (some addOp) [Node.value 1, Node.value 2],
        Node.value 3]) =
      render (Node.expr (some addOp) [Node.value 1, Node.value 2]) ++ addOp.infixSym ++
      (if nodePrec (Node.value 3) < addOp.precedence
        then "(" ++ render (Node.value 3) ++ ")" else render (Node.value 3)) :=
  ⟨render_precedence_correct.1 mulOp _ _ (by decide),
    render_precedence_correct.2.2.2.2 addOp _ _ (by decide) rfl⟩

/-! ### `setvalues`: operand consumption -/

mutual

theorem setvalues_ok : ∀ (t : Node) (g : List ℚ), leafcount t ≤ g.length →
    ∃ t2, setvalues t g = .ok (t2, g.drop (leafcount t)) ∧
      leaves t2 = g.take (leafcount t) ∧ mapValues0 t2 = mapValues0 t
  | .value v, g, h => by
    cases g with
    | nil => rw [leafcount, List.length_nil] at h; exact absurd h (by omega)
    | cons x rest =>
      exact ⟨.value x, rfl, rfl, rfl⟩
  | .expr op args, g, h => by
    rw [leafcount] at h
    obtain ⟨ts2, e1, l1, m1⟩ := setvaluesList_ok args g h
    refine ⟨.expr op ts2, ?_, ?_, ?_⟩
    · rw [setvalues, e1, leafcount]
    · rw [leaves, l1, leafcount]
    · rw [mapValues0, m1, mapValues0]

theorem setvaluesList_ok : ∀ (ts : List Node) (g : List ℚ), leafcountList ts ≤ g.length →
    ∃ ts2, setvaluesList ts g = .ok (ts2, g.drop (leafcountList ts)) ∧
      leavesList ts2 = g.take (leafcountList ts) ∧ mapValues0List ts2 = mapValues0List ts
  | [], g, _ => ⟨[], by rw [setvaluesList, leafcountList, List.drop_zero],
      by rw [leavesList, leafcountList, List.take_zero], rfl⟩
  | t :: ts, g, h => by
    rw [leafcountList] at h
    have h1 : leafcount t ≤ g.length := by omega
    obtain ⟨t2, e1, l1, m1⟩ := setvalues_ok t g h1
    have h2 : leafcountList ts ≤ (g.drop (leafcount t)).length := by
      rw [List.length_drop]; omega
    obtain ⟨ts2, e2, l2, m2⟩ := setvaluesList_ok ts (g.drop (leafcount t)) h2
    refine ⟨t2 :: ts2, ?_, ?_, ?_⟩
    · simp only [setvaluesList, e1, e2]
      rw [List.drop_drop, leafcountList]
    · rw [leavesList, l1, l2, leafcountList, List.take_add]
    · rw [mapValues0List, m1, m2, mapValues0List]

end

mutual

theorem setvalues_err : ∀ (t : Node) (g : List ℚ), g.length < leafcount t →
    setvalues t g = .error "end of iteration"
  | .value _, g, h => by
    cases g with
    | nil => rfl
    | cons x rest => rw [leafcount, List.length_cons] at h; exact absurd h (by omega)
  | .expr op args, g, h => by
    rw [leafcount] at h
    rw [setvalues, setvaluesList_err args g h]

theorem setvaluesList_err : ∀ (ts : List Node) (g : List ℚ), g.length < leafcountList ts →
    setvaluesList ts g = .error "end of iteration"
  | [], g, h => by
    rw [leafcountList] at h
    exact absurd h (Nat.not_lt_zero _)
  | t :: ts, g, h => by
    rw [leafcountList] at h
    by_cases h1 : leafcount t ≤ g.length
    · obtain ⟨t2, e1, _, _⟩ := setvalues_ok t g h1
      simp only [setvaluesList, e1,
        setvaluesList_err ts (g.drop (leafcount t)) (by rw [List.length_drop]; omega)]
    · rw [setvaluesList, setvalues_err t g (by omega)]

end

/-- Counterexample to C6 as stated: a single-leaf tree given the two-element
operand sequence `[1, 2]` — an operand count exceeding the leaf count — raises
no error at all: `setvalues` succeeds, silently leaving the surplus operand
unconsumed.  (Only too few operands make `generator::next` throw.) -/
theorem setvalues_excess_no_error :
    leafcount (Node.value 0) = 1 ∧
    setvalues (Node.value 0) [1, 2] = .ok (Node.value 1, [2]) :=
  ⟨rfl, rfl⟩

/-- C6 (amended): `setvalues` fails with the end-of-iteration error exactly
when the operands are fewer than the leaves; with at least as many operands
as leaves (equality included) it succeeds, ignoring any surplus. -/
theorem setvalues_count_contract :
    (∀ (t : Node) (g : List ℚ), g.length < leafcount t →
      setvalues t g = .error "end of iteration") ∧
    (∀ (t : Node) (g : List ℚ), leafcount t ≤ g.length →
      ∃ t2, setvalues t g = .ok (t2, g.drop (leafcount t))) :=
  ⟨fun t g h => setvalues_err t g h,
    fun t g h => (setvalues_ok t g h).imp fun _ hh => hh.1⟩

/-- Witness for C6 (amended): a two-leaf tree with one operand errors; with
exactly two operands it succeeds. -/
theorem setvalues_count_contract_witness :
    (([(1:ℚ)].length < leafcount (Node.expr none [Node.value 0, Node.value 0])) ∧
      setvalues (Node.expr none [Node.value 0, Node.value 0]) [1] =
        .error "end of iteration") ∧
    ((leafcount (Node.expr none [Node.value 0, Node.value 0]) ≤ [(1:ℚ), 2].length) ∧
      ∃ t2, setvalues (Node.expr none [Node.value 0, Node.value 0]) [1, 2] =
        .ok (t2, [(1:ℚ), 2].drop (leafcount (Node.expr none [Node.value 0, Node.value 0])))) :=
  ⟨⟨by decide, setvalues_count_contract.1 _ [1] (by decide)⟩,
    ⟨by decide, setvalues_count_contract.2 _ [1, 2] (by decide)⟩⟩

/-! ### Observer composition lemmas -/

theorem eraseOpsList_length : ∀ ts : List Node, (eraseOpsList ts).length = ts.length
  | [] => rfl
  | _ :: ts => by rw [eraseOpsList, List.length_cons, List.length_cons, eraseOpsList_length ts]

theorem skelOfList_length : ∀ ts : List Node, (skelOfList ts).length = ts.length
  | [] => rfl
  | _ :: ts => by rw [skelOfList, List.length_cons, List.length_cons, skelOfList_length ts]

mutual

theorem skelOf_eraseOps : ∀ t : Node, skelOf (eraseOps t) = skelOf t
  | .value _ => rfl
  | .expr op args => by rw [eraseOps, skelOf, skelOf, skelOfList_eraseOpsList args]

theorem skelOfList_eraseOpsList : ∀ ts : List Node, skelOfList (eraseOpsList ts) = skelOfList ts
  | [] => rfl
  | t :: ts => by
    rw [eraseOpsList, skelOfList, skelOfList, skelOf_eraseOps t, skelOfList_eraseOpsList ts]

end

mutual

theorem skelOf_mapValues0 : ∀ t : Node, skelOf (mapValues0 t) = skelOf t
  | .value _ => rfl
  | .expr op args => by rw [mapValues0, skelOf, skelOf, skelOfList_mapValues0List args]

theorem skelOfList_mapValues0List :
    ∀ ts : List Node, skelOfList (mapValues0List ts) = skelOfList ts
  | [] => rfl
  | t :: ts => by
    rw [mapValues0List, skelOfList, skelOfList, skelOf_mapValues0 t,
      skelOfList_mapValues0List ts]

end

mutual

theorem leaves_eraseOps : ∀ t : Node, leaves (eraseOps t) = leaves t
  | .value _ => rfl
  | .expr op args => by rw [eraseOps, leaves, leaves, leavesList_eraseOpsList args]

theorem leavesList_eraseOpsList : ∀ ts : List Node, leavesList (eraseOpsList ts) = leavesList ts
  | [] => rfl
  | t :: ts => by
    rw [eraseOpsList, leavesList, leavesList, leaves_eraseOps t, leavesList_eraseOpsList ts]

end

mutual

theorem leafcount_skelOf : ∀ t : Node, leafcount (skelOf t) = leafcount t
  | .value _ => rfl
  | .expr op args => by rw [skelOf, leafcount, leafcount, leafcountList_skelOfList args]

theorem leafcountList_skelOfList :
    ∀ ts : List Node, leafcountList (skelOfList ts) = leafcountList ts
  | [] => rfl
  | t :: ts => by
    rw [skelOfList, leafcountList, leafcountList, leafcount_skelOf t,
      leafcountList_skelOfList ts]

end

mutual

theorem allBinary_skelOf : ∀ t : Node, allBinary (skelOf t) = allBinary t
  | .value _ => rfl
  | .expr op args => by
    rw [skelOf, allBinary, allBinary, allBinaryList_skelOfList args, skelOfList_length args]

theorem allBinaryList_skelOfList :
    ∀ ts : List Node, allBinaryList (skelOfList ts) = allBinaryList ts
  | [] => rfl
  | t :: ts => by
    rw [skelOfList, allBinaryList, allBinaryList, allBinary_skelOf t,
      allBinaryList_skelOfList ts]

end

mutual

theorem leaves_length : ∀ t : Node, (leaves t).length = leafcount t
  | .value _ => rfl
  | .expr op args => by rw [leaves, leafcount, leavesList_length args]

theorem leavesList_length : ∀ ts : List Node, (leavesList ts).length = leafcountList ts
  | [] => rfl
  | t :: ts => by
    rw [leavesList, leafcountList, List.length_append, leaves_length t, leavesList_length ts]

end

/-! ### `setops`: mixed-radix decoding -/

theorem mixedDigits_add (r : Nat) : ∀ (a i b : Nat),
    mixedDigits r i (a + b) = mixedDigits r i a ++ mixedDigits r (i / r ^ a) b
  | 0, i, b => by rw [pow_zero, Nat.div_one, mixedDigits, List.nil_append, Nat.zero_add]
  | a + 1, i, b => by
    have h1 : a + 1 + b = (a + b) + 1 := by omega
    rw [h1]
    show i % r :: mixedDigits r (i / r) (a + b) = _
    rw [mixedDigits_add r a (i / r) b, mixedDigits]
    rw [List.cons_append, Nat.div_div_eq_div_mul, ← pow_succ']

theorem mixedDigits_length (r : Nat) : ∀ (m i : Nat), (mixedDigits r i m).length = m
  | 0, _ => rfl
  | m + 1, i => by rw [mixedDigits, List.length_cons, mixedDigits_length r m (i / r)]

mutual

theorem setops_spec : ∀ (t : Node) (ops : List Operation) (i : Nat),
    (setops t ⟨ops, i⟩).2 = ⟨ops, i / ops.length ^ bincount t⟩ ∧
    eraseOps (setops t ⟨ops, i⟩).1 = eraseOps t ∧
    opsOther (setops t ⟨ops, i⟩).1 = opsOther t ∧
    opsPre (setops t ⟨ops, i⟩).1 =
      (mixedDigits ops.length i (bincount t)).map fun d => ops[d]?
  | .value v, ops, i => by
    refine ⟨?_, rfl, rfl, rfl⟩
    rw [setops, bincount, pow_zero, Nat.div_one]
  | .expr op args, ops, i => by
    by_cases h2 : args.length = 2
    · obtain ⟨hs, he, ho, hp⟩ := setopsList_spec args ops (i / ops.length)
      have hu1 : (setops (.expr op args) ⟨ops, i⟩).1 =
          .expr (OpsGenerator.peek ⟨ops, i⟩) (setopsList args ⟨ops, i / ops.length⟩).1 := by
        rw [setops, if_pos h2]; rfl
      have hu2 : (setops (.expr op args) ⟨ops, i⟩).2 =
          (setopsList args ⟨ops, i / ops.length⟩).2 := by
        rw [setops, if_pos h2]; rfl
      have hlen : (setopsList args ⟨ops, i / ops.length⟩).1.length = args.length := by
        rw [← eraseOpsList_length (setopsList args ⟨ops, i / ops.length⟩).1, he,
          eraseOpsList_length]
      have hbc : bincount (.expr op args) = 1 + bincountList args := by
        rw [bincount, if_pos h2]
      refine ⟨?_, ?_, ?_, ?_⟩
      · rw [hu2, hs, hbc, Nat.div_div_eq_div_mul, ← pow_succ',
          Nat.add_comm 1 (bincountList args)]
      · rw [hu1, eraseOps, eraseOps, he]
      · rw [hu1, opsOther, opsOther, if_pos (by rw [hlen]; exact h2), if_pos h2, ho]
      · rw [hu1, opsPre, if_pos (by rw [hlen]; exact h2), hp, hbc,
          Nat.add_comm 1 (bincountList args), mixedDigits, List.map_cons,
          List.singleton_append]
        rfl
    · obtain ⟨hs, he, ho, hp⟩ := setopsList_spec args ops i
      have hu1 : (setops (.expr op args) ⟨ops, i⟩).1 =
          .expr op (setopsList args ⟨ops, i⟩).1 := by
        rw [setops, if_neg h2]
      have hu2 : (setops (.expr op args) ⟨ops, i⟩).2 = (setopsList args ⟨ops, i⟩).2 := by
        rw [setops, if_neg h2]
      have hlen : (setopsList args ⟨ops, i⟩).1.length = args.length := by
        rw [← eraseOpsList_length (setopsList args ⟨ops, i⟩).1, he, eraseOpsList_length]
      have hbc : bincount (.expr op args) = bincountList args := by
        rw [bincount, if_neg h2, Nat.zero_add]
      refine ⟨?_, ?_, ?_, ?_⟩
      · rw [hu2, hs, hbc]
      · rw [hu1, eraseOps, eraseOps, he]
      · rw [hu1, opsOther, opsOther, if_neg (by rw [hlen]; exact h2), if_neg h2, ho]
      · rw [hu1, opsPre, if_neg (by rw [hlen]; exact h2), hp, hbc, List.nil_append]

theorem setopsList_spec : ∀ (ts : List Node) (ops : List Operation) (i : Nat),
    (setopsList ts ⟨ops, i⟩).2 = ⟨ops, i / ops.length ^ bincountList ts⟩ ∧
    eraseOpsList (setopsList ts ⟨ops, i⟩).1 = eraseOpsList ts ∧
    opsOtherList (setopsList ts ⟨ops, i⟩).1 = opsOtherList ts ∧
    opsPreList (setopsList ts ⟨ops, i⟩).1 =
      (mixedDigits ops.length i (bincountList ts)).map fun d => ops[d]?
  | [], ops, i => by
    refine ⟨?_, rfl, rfl, rfl⟩
    rw [setopsList, bincountList, pow_zero, Nat.div_one]
  | t :: ts, ops, i => by
    obtain ⟨hs1, he1, ho1, hp1⟩ := setops_spec t ops i
    obtain ⟨hs2, he2, ho2, hp2⟩ := setopsList_spec ts ops (i / ops.length ^ bincount t)
    have hu1 : (setopsList (t :: ts) ⟨ops, i⟩).1 =
        (setops t ⟨ops, i⟩).1 :: (setopsList ts (setops t ⟨ops, i⟩).2).1 := rfl
    have hu2 : (setopsList (t :: ts) ⟨ops, i⟩).2 =
        (setopsList ts (setops t ⟨ops, i⟩).2).2 := rfl
    have hbc : bincountList (t :: ts) = bincount t + bincountList ts := rfl
    refine ⟨?_, ?_, ?_, ?_⟩
    · rw [hu2, hs1, hs2, hbc, Nat.div_div_eq_div_mul, ← pow_add]
    · rw [hu1, hs1, eraseOpsList, eraseOpsList, he1, he2]
    · rw [hu1, hs1, opsOtherList, opsOtherList, ho1, ho2]
    · rw [hu1, hs1, opsPreList, hp1, hp2, hbc,
        mixedDigits_add ops.length (bincount t) i (bincountList ts), List.map_append]

end

theorem mixedDigits_lt (r : Nat) (hr : 0 < r) : ∀ (m i : Nat), ∀ d ∈ mixedDigits r i m, d < r
  | m + 1, i, d, hd => by
    rw [mixedDigits] at hd
    rcases List.mem_cons.mp hd with h | h
    · rw [h]; exact Nat.mod_lt i hr
    · exact mixedDigits_lt r hr m (i / r) d h

theorem mixedDigits_reconstruct (r : Nat) (hr : 0 < r) : ∀ (m i : Nat), i < r ^ m →
    (mixedDigits r i m).foldr (fun d acc => d + r * acc) 0 = i
  | 0, i, h => by
    rw [pow_zero] at h
    rw [mixedDigits, List.foldr_nil]
    omega
  | m + 1, i, h => by
    have hdiv : i / r < r ^ m := by
      rw [Nat.div_lt_iff_lt_mul hr, ← pow_succ]
      exact h
    rw [mixedDigits, List.foldr_cons, mixedDigits_reconstruct r hr m (i / r) hdiv]
    exact Nat.mod_add_div i r

theorem mixedDigits_inj (r m i j : Nat) (hr : 0 < r) (hi : i < r ^ m) (hj : j < r ^ m)
    (h : mixedDigits r i m = mixedDigits r j m) : i = j := by
  rw [← mixedDigits_reconstruct r hr m i hi, ← mixedDigits_reconstruct r hr m j hj, h]

/-- Cancellation of `map f` for lists of indices below `ops.length`, when the
operation names are pairwise distinct (the model of the pairwise-distinct
`Operation*` pointers in the C++ `binops`). -/
theorem map_getElem_inj (ops : List Operation) (hn : (ops.map Operation.name).Nodup) :
    ∀ (xs ys : List Nat), (∀ x ∈ xs, x < ops.length) → (∀ y ∈ ys, y < ops.length) →
      (xs.map fun d => ops[d]?) = (ys.map fun d => ops[d]?) → xs = ys
  | [], [], _, _, _ => rfl
  | [], y :: ys, _, _, h => by simp at h
  | x :: xs, [], _, _, h => by simp at h
  | x :: xs, y :: ys, hx, hy, h => by
    rw [List.map_cons, List.map_cons] at h
    have hx1 : x < ops.length := hx x (List.mem_cons_self x xs)
    have hy1 : y < ops.length := hy y (List.mem_cons_self y ys)
    have h1 : ops[x]? = ops[y]? := (List.cons.injEq _ _ _ _ ▸ h).1
    have h2 := (List.cons.injEq _ _ _ _ ▸ h).2
    have hx2 : x < (ops.map Operation.name).length := by
      rw [List.length_map]; exact hx1
    have hy2 : y < (ops.map Operation.name).length := by
      rw [List.length_map]; exact hy1
    have hxy : x = y := by
      rw [List.getElem?_eq_getElem hx1, List.getElem?_eq_getElem hy1] at h1
      have h3 : ops[x].name = ops[y].name := by
        rw [Option.some.injEq] at h1
        rw [h1]
      have h4 : (ops.map Operation.name).get ⟨x, hx2⟩ = (ops.map Operation.name).get ⟨y, hy2⟩ := by
        rw [List.get_eq_getElem, List.get_eq_getElem, List.getElem_map, List.getElem_map]
        exact h3
      have h5 := List.Nodup.get_inj_iff hn |>.mp h4
      exact congrArg Fin.val (by exact_mod_cast h5)
    rw [hxy, map_getElem_inj ops hn xs ys (fun a ha => hx a (List.mem_cons_of_mem x ha))
      (fun a ha => hy a (List.mem_cons_of_mem y ha)) h2]

/-- C2: for any tree `t` with `m` two-child internal nodes and any list of
pairwise-distinct binary operations (distinct `Operation*` objects, modelled
by distinct names), the `r ^ m` operator assignments decoded by
`OpsGenerator`/`setops` from the indices `0 .. r^m - 1` are pairwise
distinct — mixed-radix decoding is a bijection from `[0, r^m)` onto the set
of produced assignments. -/
theorem opsgen_assignments_distinct (t : Node) (ops : List Operation)
    (hn : (ops.map Operation.name).Nodup) :
    ((List.range (ops.length ^ bincount t)).map fun i => (setops t ⟨ops, i⟩).1).Nodup ∧
    ((List.range (ops.length ^ bincount t)).map fun i => (setops t ⟨ops, i⟩).1).length =
      ops.length ^ bincount t := by
  refine ⟨?_, by rw [List.length_map, List.length_range]⟩
  rcases Nat.eq_zero_or_pos ops.length with hr | hr
  · cases hm : bincount t with
    | zero =>
      rw [pow_zero]
      have : List.range 1 = [0] := rfl
      rw [this, List.map_cons, List.map_nil]
      exact List.nodup_singleton _
    | succ m =>
      rw [hr, Nat.zero_pow (Nat.succ_pos m), List.range_zero, List.map_nil]
      exact List.nodup_nil
  · refine List.Nodup.map_on ?_ (List.nodup_range _)
    intro i hi j hj hij
    rw [List.mem_range] at hi hj
    have di := (setops_spec t ops i).2.2.2
    have dj := (setops_spec t ops j).2.2.2
    rw [hij] at di
    have hdd : (mixedDigits ops.length i (bincount t)).map (fun d => ops[d]?) =
        (mixedDigits ops.length j (bincount t)).map fun d => ops[d]? := by
      rw [← di, ← dj]
    have heq := map_getElem_inj ops hn _ _
      (mixedDigits_lt ops.length hr (bincount t) i)
      (mixedDigits_lt ops.length hr (bincount t) j) hdd
    exact mixedDigits_inj ops.length (bincount t) i j hr hi hj heq

/-- The three-leaf shape `(0 # (0 # 0))` — a left leaf combined with an
internal `(leaf, leaf)` right subtree — as built by `enumtrees`. -/
def shape3 : Node :=
  Node.expr none [Node.value 0, Node.expr none [Node.value 0, Node.value 0]]

/-- Witness for C2 at the three-leaf shape and the program's `binops` list
(6 binary operations, 2 binary nodes, 36 assignments). -/
theorem opsgen_assignments_distinct_witness :
    (binops.map Operation.name).Nodup ∧
    ((List.range (binops.length ^ bincount shape3)).map
        fun i => (setops shape3 ⟨binops, i⟩).1).Nodup ∧
    ((List.range (binops.length ^ bincount shape3)).map
        fun i => (setops shape3 ⟨binops, i⟩).1).length =
      binops.length ^ bincount shape3 :=
  ⟨by decide, (opsgen_assignments_distinct shape3 binops (by decide)).1,
    (opsgen_assignments_distinct shape3 binops (by decide)).2⟩

/-- C8: with exactly as many operands as leaves, `setvalues` succeeds,
exhausts the operand sequence, and the pre-order leaf values of the result
are exactly the operand sequence (no reorder, drop, or repeat), everything
else unchanged; and `setops` deterministically writes the mixed-radix digits
of the index, in the same pre-order, onto the two-child internal nodes: the
`k`-th pre-order binary node receives `ops[digit k]`. -/
theorem assign_preorder_correct :
    (∀ (t : Node) (g : List ℚ), g.length = leafcount t →
      ∃ t2, setvalues t g = .ok (t2, []) ∧ leaves t2 = g ∧
        mapValues0 t2 = mapValues0 t) ∧
    (∀ (t : Node) (ops : List Operation) (i : Nat),
      opsPre (setops t ⟨ops, i⟩).1 =
        (mixedDigits ops.length i (bincount t)).map (fun d => ops[d]?) ∧
      eraseOps (setops t ⟨ops, i⟩).1 = eraseOps t) := by
  constructor
  · intro t g hg
    obtain ⟨t2, e, l, m⟩ := setvalues_ok t g (le_of_eq hg.symm)
    refine ⟨t2, ?_, ?_, m⟩
    · rw [e, ← hg, List.drop_length]
    · rw [l, ← hg, List.take_length]
  · intro t ops i
    exact ⟨(setops_spec t ops i).2.2.2, (setops_spec t ops i).2.1⟩

/-- Witness for C8 on the three-leaf shape with operands `[5, 7, 9]`. -/
theorem assign_preorder_correct_witness :
    ([(5:ℚ), 7, 9].length = leafcount shape3) ∧
    (∃ t2, setvalues shape3 [5, 7, 9] = .ok (t2, []) ∧ leaves t2 = [5, 7, 9] ∧
      mapValues0 t2 = mapValues0 shape3) :=
  ⟨by decide, assign_preorder_correct.1 shape3 [5, 7, 9] (by decide)⟩

/-- A successful `setvalues` run consumed exactly `leafcount t` operands and
changed nothing but the leaf values. -/
theorem setvalues_ok_inv (t : Node) (g : List ℚ) (t2 : Node) (g2 : List ℚ)
    (h : setvalues t g = .ok (t2, g2)) :
    mapValues0 t2 = mapValues0 t ∧ leaves t2 = g.take (leafcount t) ∧
      g2 = g.drop (leafcount t) := by
  by_cases hl : leafcount t ≤ g.length
  · obtain ⟨t3, e, l, m⟩ := setvalues_ok t g hl
    have h2 := h.symm.trans e
    rw [Except.ok.injEq, Prod.mk.injEq] at h2
    obtain ⟨h3, h4⟩ := h2
    subst h3
    exact ⟨m, l, h4⟩
  · rw [setvalues_err t g (by omega)] at h
    exact Except.noConfusion h

/-- C10: a successful `setvalues` changes only leaf values (`mapValues0`
erases exactly the leaf values, so this equality pins structure and every
operation field), and `setops` changes only the operation fields of
two-child `Expr` nodes (`eraseOps` erases exactly the operation fields, so
this equality pins structure and leaf values; `opsOther` pins the operation
fields of every `Expr` node whose arity is not 2). -/
theorem assign_frame_correct :
    (∀ (t : Node) (g : List ℚ) (t2 : Node) (g2 : List ℚ),
      setvalues t g = .ok (t2, g2) → mapValues0 t2 = mapValues0 t) ∧
    (∀ (t : Node) (ops : List Operation) (i : Nat),
      eraseOps (setops t ⟨ops, i⟩).1 = eraseOps t ∧
      opsOther (setops t ⟨ops, i⟩).1 = opsOther t) :=
  ⟨fun t g t2 g2 h => (setvalues_ok_inv t g t2 g2 h).1,
    fun t ops i => ⟨(setops_spec t ops i).2.1, (setops_spec t ops i).2.2.1⟩⟩

/-- Witness for C10: a concrete `setvalues` run on a tree with a unary
internal node, whose operation field survives both assigners. -/
theorem assign_frame_correct_witness :
    (setvalues (Node.expr none [Node.value 0, Node.expr (some negOp) [Node.value 0]]) [1, 2] =
      .ok (Node.expr none [Node.value 1, Node.expr (some negOp) [Node.value 2]], [])) ∧
    mapValues0 (Node.expr none [Node.value 1, Node.expr (some negOp) [Node.value 2]]) =
      mapValues0 (Node.expr none [Node.value 0, Node.expr (some negOp) [Node.value 0]]) ∧
    opsOther (setops (Node.expr none [Node.value 0, Node.expr (some negOp) [Node.value 0]])
        ⟨binops, 3⟩).1 =
      opsOther (Node.expr none [Node.value 0, Node.expr (some negOp) [Node.value 0]]) :=
  ⟨rfl,
    assign_frame_correct.1 _ [1, 2] _ [] rfl,
    (assign_frame_correct.2 (Node.expr none [Node.value 0,
      Node.expr (some negOp) [Node.value 0]]) binops 3).2⟩

/-- The operator list of the C4 scenario: `{+, -, *, /}` with precedences
1, 1, 2, 3. -/
def c4ops : List Operation := [addOp, subOp, mulOp, divOp]

/-- Counterexample to C4 as stated: operands `[1,2,3]`, operators
`{+,-,*,/}`, shape `(leaf, (leaf, leaf))`, operator-index 0 (both nodes get
`add`) — the rendered text is NOT `1+(2+3)`: the right child has precedence
equal (not strictly lower) to the parent, so no parentheses are emitted. -/
theorem c4_scenario_not_parenthesized :
    (searchStep shape3 [1, 2, 3] c4ops 0).toOption.map render ≠ some "1+(2+3)" := by
  decide

/-- C4 (amended): the scenario renders as `1+2+3` and evaluates to 6. -/
theorem c4_scenario_render_eval :
    (searchStep shape3 [1, 2, 3] c4ops 0).toOption.map render = some "1+2+3" ∧
    (searchStep shape3 [1, 2, 3] c4ops 0).toOption.map eval = some (some 6) := by
  refine ⟨by decide, ?_⟩
  have h : (searchStep shape3 [1, 2, 3] c4ops 0).toOption.map eval =
      some (some ((1:ℚ) + (2 + 3))) := rfl
  rw [h]
  norm_num

/-! ### The main loop: tree reuse across iterations -/

theorem skelOf_value_inv (t : Node) (x : ℚ) (h : skelOf t = .value x) :
    ∃ v, t = .value v := by
  cases t with
  | value v => exact ⟨v, rfl⟩
  | expr op args => rw [skelOf] at h; exact Node.noConfusion h

theorem skelOf_expr_inv (t : Node) (op2 : Option Operation) (ts2 : List Node)
    (h : skelOf t = .expr op2 ts2) :
    ∃ op args, t = .expr op args ∧ skelOfList args = ts2 := by
  cases t with
  | value v => rw [skelOf] at h; exact Node.noConfusion h
  | expr op args =>
    rw [skelOf] at h
    exact ⟨op, args, rfl, (Node.expr.injEq _ _ _ _ ▸ h).2⟩

mutual

theorem setops_congr : ∀ (a b : Node), skelOf a = skelOf b → leaves a = leaves b →
    allBinary a = true → ∀ g : OpsGenerator, setops a g = setops b g
  | .value v, b, hs, hl, _, g => by
    rw [skelOf] at hs
    obtain ⟨w, rfl⟩ := skelOf_value_inv b 0 hs.symm
    rw [leaves, leaves, List.cons.injEq] at hl
    rw [hl.1]
  | .expr op args, b, hs, hl, hb, g => by
    rw [skelOf] at hs
    obtain ⟨op2, args2, rfl, hsk⟩ := skelOf_expr_inv b none (skelOfList args) hs.symm
    rw [allBinary, Bool.and_eq_true, beq_iff_eq] at hb
    have hlen : args2.length = args.length := by
      rw [← skelOfList_length args, ← skelOfList_length args2, hsk]
    rw [leaves, leaves] at hl
    rw [setops, setops, if_pos hb.1, if_pos (hlen.trans hb.1)]
    rw [setopsList_congr args args2 hsk.symm hl hb.2 g.adv]

theorem setopsList_congr : ∀ (as bs : List Node), skelOfList as = skelOfList bs →
    leavesList as = leavesList bs → allBinaryList as = true →
    ∀ g : OpsGenerator, setopsList as g = setopsList bs g
  | [], bs, hs, _, _, g => by
    cases bs with
    | nil => rfl
    | cons b bs2 => rw [skelOfList, skelOfList] at hs; exact List.noConfusion hs
  | a :: as, bs, hs, hl, hb, g => by
    cases bs with
    | nil => rw [skelOfList, skelOfList] at hs; exact List.noConfusion hs
    | cons b bs2 =>
      rw [skelOfList, skelOfList, List.cons.injEq] at hs
      rw [allBinaryList, Bool.and_eq_true] at hb
      rw [leavesList, leavesList] at hl
      have hlc : (leaves a).length = (leaves b).length := by
        rw [leaves_length, leaves_length, ← leafcount_skelOf a, ← leafcount_skelOf b, hs.1]
      obtain ⟨hl1, hl2⟩ := List.append_inj hl hlc
      rw [setopsList, setopsList, setops_congr a b hs.1 hl1 hb.1 g,
        setopsList_congr as bs2 hs.2 hl2 hb.2 (setops b g).2]

end

theorem searchStep_congr (a b : Node) (hs : skelOf a = skelOf b) (hb : allBinary a = true)
    (nums : List ℚ) (ops : List Operation) (i : Nat) :
    searchStep a nums ops i = searchStep b nums ops i := by
  have hlc : leafcount a = leafcount b := by
    rw [← leafcount_skelOf a, hs, leafcount_skelOf]
  by_cases h : leafcount a ≤ nums.length
  · obtain ⟨ta, ea, la, ma⟩ := setvalues_ok a nums h
    obtain ⟨tb, eb, lb, mb⟩ := setvalues_ok b nums (hlc ▸ h)
    have hsk : skelOf ta = skelOf tb := by
      rw [← skelOf_mapValues0 ta, ma, skelOf_mapValues0, ← skelOf_mapValues0 tb, mb,
        skelOf_mapValues0, hs]
    have hlv : leaves ta = leaves tb := by rw [la, lb, hlc]
    have hab : allBinary ta = true := by
      rw [← allBinary_skelOf ta, ← skelOf_mapValues0 ta, ma, skelOf_mapValues0,
        allBinary_skelOf]
      exact hb
    simp only [searchStep, ea, eb]
    rw [setops_congr ta tb hsk hlv hab ⟨ops, i⟩]
  · have ea := setvalues_err a nums (by omega)
    have eb := setvalues_err b nums (by rw [← hlc]; omega)
    simp only [searchStep, ea, eb]

theorem searchStep_ok_skel (t : Node) (nums : List ℚ) (ops : List Operation) (i : Nat)
    (t2 : Node) (h : searchStep t nums ops i = .ok t2) : skelOf t2 = skelOf t := by
  rw [searchStep] at h
  cases hv : setvalues t nums with
  | error e => rw [hv] at h; exact Except.noConfusion h
  | ok p =>
    obtain ⟨t1, g1⟩ := p
    rw [hv] at h
    have h2 : (setops t1 ⟨ops, i⟩).1 = t2 := by
      rw [Except.ok.injEq] at h
      exact h
    have h1 := (setvalues_ok_inv t nums t1 g1 hv).1
    rw [← h2, ← skelOf_eraseOps, (setops_spec t1 ops i).2.1, skelOf_eraseOps,
      ← skelOf_mapValues0, h1, skelOf_mapValues0]

theorem innerState_skelOf (t : Node) (nums : List ℚ) (ops : List Operation) :
    ∀ i, skelOf (innerState t nums ops i) = skelOf t
  | 0 => rfl
  | i + 1 => by
    rw [innerState]
    cases h : searchStep (innerState t nums ops i) nums ops i with
    | error e => exact innerState_skelOf t nums ops i
    | ok t2 =>
      rw [searchStep_ok_skel _ nums ops i t2 h]
      exact innerState_skelOf t nums ops i

/-- Counterexample to C5 as stated: after iteration 0 of the inner loop, the
tree entering iteration 1 is not a fresh copy of the skeleton — its leaves
still hold the values written by iteration 0, because `main` reuses the same
tree object across all iterations without cloning. -/
theorem mainloop_no_fresh_clone :
    leaves (innerState (Node.expr none [Node.value 0, Node.value 0]) [1, 2] binops 1) ≠
      leaves (Node.expr none [Node.value 0, Node.value 0]) := by
  decide

/-- C5 (amended): although the tree object is reused and mutated in place,
each iteration overwrites every leaf value and every binary node's operation,
so iteration `j` computes exactly the same tree — hence the same result and
rendering — whether it runs after any number `i` of earlier iterations or
directly on the pristine shape. -/
theorem mainloop_iteration_independent (t : Node) (nums : List ℚ) (ops : List Operation)
    (i j : Nat) (hb : allBinary t = true) :
    searchStep (innerState t nums ops i) nums ops j = searchStep t nums ops j := by
  refine searchStep_congr _ t (innerState_skelOf t nums ops i) ?_ nums ops j
  rw [← allBinary_skelOf, innerState_skelOf, allBinary_skelOf]
  exact hb

/-- Witness for C5 (amended): on the three-leaf shape, iteration 7 after five
earlier iterations equals iteration 7 run fresh. -/
theorem mainloop_iteration_independent_witness :
    allBinary shape3 = true ∧
    searchStep (innerState shape3 [1, 2, 3] binops 5) [1, 2, 3] binops 7 =
      searchStep shape3 [1, 2, 3] binops 7 :=
  ⟨rfl, mainloop_iteration_independent shape3 [1, 2, 3] binops 5 7 rfl⟩

/-! ### `enumtrees`: Catalan counting, distinctness, completeness -/

theorem attach_flatMap_eq {α β : Type} (l : List α) (f : α → List β) :
    l.attach.flatMap (fun x => f x.1) = l.flatMap f := by
  conv_rhs => rw [← List.attach_map_subtype_val l]
  rw [List.flatMap_map]

/-- The `enumtrees` recursion for `nleaves = n + 2`, with the bookkeeping
`attach` removed. -/
theorem enumtreesPos_two (n : Nat) :
    enumtreesPos (n + 2) = (List.range (n + 1)).flatMap fun j =>
      (enumtreesPos (n + 1 - j)).flatMap fun t =>
        (enumtreesPos (j + 1)).map fun s => Node.expr none [t, s] := by
  rw [enumtreesPos]
  exact attach_flatMap_eq (List.range (n + 1)) fun j =>
    (enumtreesPos (n + 1 - j)).flatMap fun t =>
      (enumtreesPos (j + 1)).map fun s => Node.expr none [t, s]

/-- The trees `enumtrees` is specified to deliver: skeletons whose leaves are
default-initialized `Value` nodes and whose internal nodes are unassigned
two-child `Expr` nodes. -/
inductive IsSkel : Node → Prop where
  | leaf : IsSkel (.value 0)
  | node (l r : Node) : IsSkel l → IsSkel r → IsSkel (.expr none [l, r])

theorem leafcount_node (l r : Node) (op : Option Operation) :
    leafcount (.expr op [l, r]) = leafcount l + leafcount r := by
  rw [leafcount, leafcountList, leafcountList, leafcountList]
  omega

theorem enumtreesPos_sound : ∀ (n : Nat) (t : Node), t ∈ enumtreesPos n →
    IsSkel t ∧ leafcount t = n
  | 0, t, h => by rw [enumtreesPos] at h; exact absurd h (List.not_mem_nil t)
  | 1, t, h => by
    rw [enumtreesPos, List.mem_singleton] at h
    rw [h]
    exact ⟨IsSkel.leaf, rfl⟩
  | n + 2, t, h => by
    rw [enumtreesPos_two, List.mem_flatMap] at h
    obtain ⟨j, hj, h⟩ := h
    have hjlt : j < n + 1 := List.mem_range.mp hj
    rw [List.mem_flatMap] at h
    obtain ⟨l, hl, h⟩ := h
    rw [List.mem_map] at h
    obtain ⟨r, hr, rfl⟩ := h
    have IH1 := enumtreesPos_sound (n + 1 - j) l hl
    have IH2 := enumtreesPos_sound (j + 1) r hr
    refine ⟨IsSkel.node l r IH1.1 IH2.1, ?_⟩
    rw [leafcount_node, IH1.2, IH2.2]
    omega
termination_by n => n
decreasing_by
  all_goals simp_wf
  all_goals omega

theorem IsSkel.lc_pos {t : Node} (h : IsSkel t) : 1 ≤ leafcount t := by
  induction h with
  | leaf => exact le_refl 1
  | node l r hl hr ihl ihr => rw [leafcount_node]; omega

theorem enumtreesPos_complete (t : Node) (h : IsSkel t) :
    t ∈ enumtreesPos (leafcount t) := by
  induction h with
  | leaf =>
    have h1 : leafcount (Node.value 0) = 1 := rfl
    rw [h1, enumtreesPos, List.mem_singleton]
  | node l r hl hr ihl ihr =>
    have hL : 1 ≤ leafcount l := hl.lc_pos
    have hR : 1 ≤ leafcount r := hr.lc_pos
    obtain ⟨n, hn⟩ : ∃ n, leafcount l + leafcount r = n + 2 :=
      ⟨leafcount l + leafcount r - 2, by omega⟩
    rw [leafcount_node, hn, enumtreesPos_two, List.mem_flatMap]
    refine ⟨leafcount r - 1, ?_, ?_⟩
    · rw [List.mem_range]; omega
    rw [List.mem_flatMap]
    refine ⟨l, ?_, ?_⟩
    · have h1 : n + 1 - (leafcount r - 1) = leafcount l := by omega
      rw [h1]; exact ihl
    rw [List.mem_map]
    refine ⟨r, ?_, rfl⟩
    have h2 : leafcount r - 1 + 1 = leafcount r := by omega
    rw [h2]; exact ihr

theorem sum_map_constant {α : Type} (l : List α) (c : Nat) :
    (l.map fun _ => c).sum = l.length * c := by
  induction l with
  | nil => simp
  | cons a as ih => rw [List.map_cons, List.sum_cons, ih, List.length_cons]; ring

theorem enumtreesPos_length : ∀ n : Nat, (enumtreesPos (n + 1)).length = catalan n
  | 0 => by rw [enumtreesPos, catalan_zero, List.length_singleton]
  | m + 1 => by
    rw [enumtreesPos_two, List.length_flatMap]
    have hinner : ∀ j, ((enumtreesPos (m + 1 - j)).flatMap fun t =>
        (enumtreesPos (j + 1)).map fun s => Node.expr none [t, s]).length =
        (enumtreesPos (m + 1 - j)).length * (enumtreesPos (j + 1)).length := by
      intro j
      rw [List.length_flatMap]
      have h1 : List.map (List.length ∘ fun t => (enumtreesPos (j + 1)).map
          fun s => Node.expr none [t, s]) (enumtreesPos (m + 1 - j)) =
          List.map (fun _ => (enumtreesPos (j + 1)).length) (enumtreesPos (m + 1 - j)) := by
        refine List.map_congr_left fun t ht => ?_
        rw [Function.comp_apply, List.length_map]
      rw [h1, sum_map_constant]
    have h2 : List.map (List.length ∘ fun j => (enumtreesPos (m + 1 - j)).flatMap fun t =>
        (enumtreesPos (j + 1)).map fun s => Node.expr none [t, s]) (List.range (m + 1)) =
        List.map (fun j => catalan (m - j) * catalan j) (List.range (m + 1)) := by
      refine List.map_congr_left fun j hj => ?_
      have hjlt : j < m + 1 := List.mem_range.mp hj
      rw [Function.comp_apply, hinner j]
      have h3 : m + 1 - j = (m - j) + 1 := by omega
      rw [h3, enumtreesPos_length (m - j), enumtreesPos_length j]
    rw [h2]
    have h4 : (List.map (fun j => catalan (m - j) * catalan j) (List.range (m + 1))).sum =
        ∑ j ∈ Finset.range (m + 1), catalan (m - j) * catalan j := rfl
    rw [h4, catalan_succ,
      Fin.sum_univ_eq_sum_range (fun k => catalan k * catalan (m - k)) (m + 1),
      ← Finset.sum_range_reflect]
    refine Finset.sum_congr rfl fun j hj => ?_
    have hj2 : j < m + 1 := Finset.mem_range.mp hj
    have h5 : m + 1 - 1 - j = m - j := by omega
    have h6 : m - (m - j) = j := by omega
    rw [h5, h6, Nat.mul_comm]
termination_by n => n
decreasing_by
  all_goals simp_wf
  all_goals omega

theorem enumtreesPos_nodup : ∀ n : Nat, (enumtreesPos n).Nodup
  | 0 => by rw [enumtreesPos]; exact List.nodup_nil
  | 1 => by rw [enumtreesPos]; exact List.nodup_singleton _
  | n + 2 => by
    rw [enumtreesPos_two, List.nodup_flatMap]
    constructor
    · intro j hj
      have hjlt : j < n + 1 := List.mem_range.mp hj
      rw [List.nodup_flatMap]
      constructor
      · intro t ht
        refine List.Nodup.map ?_ (enumtreesPos_nodup (j + 1))
        intro a b hab
        injection hab with h1 h2
        injection h2 with h3 h4
        injection h4 with h5 h6
      · refine List.Pairwise.imp ?_ (enumtreesPos_nodup (n + 1 - j))
        intro t1 t2 hne x hx1 hx2
        rw [List.mem_map] at hx1 hx2
        obtain ⟨s1, hs1, rfl⟩ := hx1
        obtain ⟨s2, hs2, heq⟩ := hx2
        injection heq with h1 h2
        injection h2 with h3 h4
        exact hne h3.symm
    · refine List.Pairwise.imp ?_ (List.nodup_range (n + 1))
      intro j1 j2 hne x hx1 hx2
      rw [List.mem_flatMap] at hx1 hx2
      obtain ⟨l1, hl1, hx1⟩ := hx1
      obtain ⟨l2, hl2, hx2⟩ := hx2
      rw [List.mem_map] at hx1 hx2
      obtain ⟨r1, hr1, rfl⟩ := hx1
      obtain ⟨r2, hr2, heq⟩ := hx2
      injection heq with h1 h2
      injection h2 with h3 h4
      injection h4 with h5 h6
      have e1 := (enumtreesPos_sound (j1 + 1) r1 hr1).2
      have e2 := (enumtreesPos_sound (j2 + 1) r2 hr2).2
      rw [h5] at e2
      exact hne (by omega)
termination_by n => n
decreasing_by
  all_goals simp_wf
  all_goals omega

theorem enumtreesPos_mem_split (n : Nat) (hn : 2 ≤ n) (t : Node) :
    t ∈ enumtreesPos n ↔ ∃! k, 1 ≤ k ∧ k ≤ n - 1 ∧ ∃ l r,
      t = Node.expr none [l, r] ∧ l ∈ enumtreesPos (n - k) ∧ r ∈ enumtreesPos k := by
  obtain ⟨m, rfl⟩ : ∃ m, n = m + 2 := ⟨n - 2, by omega⟩
  constructor
  · intro h
    rw [enumtreesPos_two, List.mem_flatMap] at h
    obtain ⟨j, hj, h⟩ := h
    have hjlt : j < m + 1 := List.mem_range.mp hj
    rw [List.mem_flatMap] at h
    obtain ⟨l, hl, h⟩ := h
    rw [List.mem_map] at h
    obtain ⟨r, hr, rfl⟩ := h
    refine ⟨j + 1, ⟨by omega, by omega, l, r, rfl, ?_, hr⟩, ?_⟩
    · have h1 : m + 2 - (j + 1) = m + 1 - j := by omega
      rw [h1]; exact hl
    · rintro k2 ⟨hk1, hk2, l2, r2, heq, hl2, hr2⟩
      injection heq with h1 h2
      injection h2 with h3 h4
      injection h4 with h5 h6
      have e2 := (enumtreesPos_sound k2 r2 hr2).2
      rw [← h5] at e2
      have e1 := (enumtreesPos_sound (j + 1) r hr).2
      omega
  · rintro ⟨k, ⟨hk1, hk2, l, r, rfl, hl, hr⟩, _⟩
    rw [enumtreesPos_two, List.mem_flatMap]
    refine ⟨k - 1, by rw [List.mem_range]; omega, ?_⟩
    rw [List.mem_flatMap]
    refine ⟨l, ?_, ?_⟩
    · have h1 : m + 1 - (k - 1) = m + 2 - k := by omega
      rw [h1]; exact hl
    rw [List.mem_map]
    refine ⟨r, ?_, rfl⟩
    have h2 : k - 1 + 1 = k := by omega
    rw [h2]; exact hr

/-- C1: `enumtrees` delivers nothing for a leaf count below 1; for `N ≥ 1` it
delivers exactly `catalan (N - 1)` skeletons (1, 1, 2, 5, … for `N` = 1, 2,
3, 4, …), pairwise distinct by structural equality; every skeleton with `N`
leaves is delivered (no omissions); and for `N ≥ 2` each delivered tree
arises from exactly one split `k ∈ [1, N-1]`, as a left subtree with `N - k`
leaves combined with a right subtree with `k` leaves. -/
theorem enumtrees_catalan_correct :
    (∀ z : Int, z < 1 → enumtrees z = []) ∧
    (∀ z : Int, 1 ≤ z → enumtrees z = enumtreesPos z.toNat) ∧
    (∀ n : Nat, (enumtreesPos (n + 1)).length = catalan n) ∧
    (∀ n : Nat, (enumtreesPos n).Nodup) ∧
    (∀ t : Node, IsSkel t → t ∈ enumtreesPos (leafcount t)) ∧
    (∀ (n : Nat) (t : Node), t ∈ enumtreesPos n → IsSkel t ∧ leafcount t = n) ∧
    (∀ n : Nat, 2 ≤ n → ∀ t : Node,
      t ∈ enumtreesPos n ↔ ∃! k, 1 ≤ k ∧ k ≤ n - 1 ∧ ∃ l r,
        t = Node.expr none [l, r] ∧ l ∈ enumtreesPos (n - k) ∧ r ∈ enumtreesPos k) := by
  refine ⟨?_, ?_, enumtreesPos_length, enumtreesPos_nodup,
    fun t h => enumtreesPos_complete t h, fun n t h => enumtreesPos_sound n t h,
    fun n hn t => enumtreesPos_mem_split n hn t⟩
  · intro z hz
    rw [enumtrees, if_pos hz]
  · intro z hz
    rw [enumtrees, if_neg (by omega)]

/-- Witness for C1: the negative-count case at `-3`, and the three-leaf shape
`(0 # (0 # 0))`, which is a skeleton and is delivered by the enumeration. -/
theorem enumtrees_catalan_correct_witness :
    enumtrees (-3) = [] ∧
    enumtrees 3 = enumtreesPos 3 ∧
    IsSkel shape3 ∧
    shape3 ∈ enumtreesPos (leafcount shape3) ∧
    (shape3 ∈ enumtreesPos 3 ↔ ∃! k, 1 ≤ k ∧ k ≤ 3 - 1 ∧ ∃ l r,
      shape3 = Node.expr none [l, r] ∧ l ∈ enumtreesPos (3 - k) ∧ r ∈ enumtreesPos k) :=
  ⟨enumtrees_catalan_correct.1 (-3) (by decide),
    enumtrees_catalan_correct.2.1 3 (by decide),
    IsSkel.node _ _ IsSkel.leaf (IsSkel.node _ _ IsSkel.leaf IsSkel.leaf),
    enumtrees_catalan_correct.2.2.2.2.1 shape3
      (IsSkel.node _ _ IsSkel.leaf (IsSkel.node _ _ IsSkel.leaf IsSkel.leaf)),
    enumtrees_catalan_correct.2.2.2.2.2.2 3 (by decide) shape3⟩
